import Mathlib

/-!
Verification development for the AHP pairwise-comparison kernel of this
repository.

The numeric core lives in `gui/calculations.py` (comparison-matrix builder,
priority estimators, consistency checker) and the elicitation state machine
lives in `dynamic_scale_interface_complete.py` (the faithful recreation of the
Delphi `DynamicScaleInterface`; `main.py` holds a simplified variant of the
same class).  Python floats are modelled as exact rationals (for the discrete
state machine, whose arithmetic is exact small fractions) and as real numbers
(for the scale transforms and the eigen/consistency computations).
-/

namespace Curslast

/-! ## gui/calculations.py -/

/-- The loop body of `build_comparison_matrix` from `gui/calculations.py`
(lines 197-199): for a comparison `(i, j, value)` execute
`matrix[i, j] = value` followed by
`matrix[j, i] = 1.0 / value if value > 0 else 1.0`. -/
def apply_comparison (matrix : ℕ → ℕ → ℚ) (c : ℕ × ℕ × ℚ) : ℕ → ℕ → ℚ :=
  -- matrix[i, j] = value
  let step1 : ℕ → ℕ → ℚ :=
    fun p q => if p = c.1 ∧ q = c.2.1 then c.2.2 else matrix p q
  -- matrix[j, i] = 1.0 / value if value > 0 else 1.0
  fun p q =>
    if p = c.2.1 ∧ q = c.1 then (if 0 < c.2.2 then 1 / c.2.2 else 1)
    else step1 p q

/-- `build_comparison_matrix(n, comparisons)` from `gui/calculations.py`
(lines 183-201).  Starts from the all-ones `n × n` matrix and folds
`apply_comparison` over the comparison list.  The matrix is modelled as a
total function on indices; entries outside `[0, n)` are never read. -/
def build_comparison_matrix (n : ℕ) (comparisons : List (ℕ × ℕ × ℚ)) :
    ℕ → ℕ → ℚ :=
  comparisons.foldl apply_comparison (fun _ _ => 1)

/-- The `RANDOM_INDEX` table from `gui/calculations.py` (lines 10-26),
modelling the Python dict: `some` on keys 1..15, `none` elsewhere. -/
noncomputable def RANDOM_INDEX (n : ℕ) : Option ℝ :=
  if n = 1 then some 0.00
  else if n = 2 then some 0.00
  else if n = 3 then some 0.58
  else if n = 4 then some 0.90
  else if n = 5 then some 1.12
  else if n = 6 then some 1.24
  else if n = 7 then some 1.32
  else if n = 8 then some 1.41
  else if n = 9 then some 1.45
  else if n = 10 then some 1.49
  else if n = 11 then some 1.51
  else if n = 12 then some 1.48
  else if n = 13 then some 1.56
  else if n = 14 then some 1.57
  else if n = 15 then some 1.59
  else none

/-- `calculate_lambda_max(comparison_matrix, weights)` from
`gui/calculations.py` (lines 81-98): `sum((A·w)_i / w_i) / n`. -/
noncomputable def calculate_lambda_max {n : ℕ} (comparison_matrix : Fin n → Fin n → ℝ)
    (weights : Fin n → ℝ) : ℝ :=
  (∑ i, (∑ j, comparison_matrix i j * weights j) / weights i) / n

/-- `calculate_consistency_index(lambda_max, n)` from `gui/calculations.py`
(lines 101-116): `0` for `n ≤ 1`, else `(λ_max - n) / (n - 1)`. -/
noncomputable def calculate_consistency_index (lambda_max : ℝ) (n : ℕ) : ℝ :=
  if n ≤ 1 then 0 else (lambda_max - n) / (n - 1)

open Classical in
/-- `calculate_consistency_ratio(CI, n)` from `gui/calculations.py`
(lines 119-136): `0` for `n ≤ 2`, else `CI / RI` with
`RI = RANDOM_INDEX.get(n, 1.49)` and the defensive `RI > 0` guard. -/
noncomputable def calculate_consistency_ratio (CI : ℝ) (n : ℕ) : ℝ :=
  if n ≤ 2 then 0
  else
    let RI := (RANDOM_INDEX n).getD 1.49
    if 0 < RI then CI / RI else 0

/-- Normalization shared by both priority estimators in
`gui/calculations.py`: divide a vector by the sum of its entries. -/
noncomputable def normalizeVec {n : ℕ} (v : Fin n → ℝ) : Fin n → ℝ :=
  fun i => v i / ∑ j, v j

/-- `calculate_weights_geometric_mean(comparison_matrix)` from
`gui/calculations.py` (lines 57-78): each row's product raised to the power
`1.0 / n`, then normalized to sum 1. -/
noncomputable def calculate_weights_geometric_mean {n : ℕ}
    (comparison_matrix : Fin n → Fin n → ℝ) : Fin n → ℝ :=
  normalizeVec (fun i => (∏ j, comparison_matrix i j) ^ ((1 : ℝ) / n))

/-- The perfectly consistent matrix `M[i][j] = w_true[i] / w_true[j]`
used by the spec's "perfectly consistent matrix" property. -/
noncomputable def consistentMatrix {n : ℕ} (w : Fin n → ℝ) : Fin n → Fin n → ℝ :=
  fun i j => w i / w j

/-- The Random Index table exactly as the spec states it
(`n = 1..15`: 0, 0, 0.58, 0.90, 1.12, 1.24, 1.32, 1.41, 1.45, 1.49, 1.51,
1.48, 1.56, 1.57, 1.59; fallback `1.49` for every `n > 15`).  Stated from
the spec's words, to be compared with the code's `RANDOM_INDEX` lookup. -/
noncomputable def RI_spec (n : ℕ) : ℝ :=
  if n = 1 then 0.00
  else if n = 2 then 0.00
  else if n = 3 then 0.58
  else if n = 4 then 0.90
  else if n = 5 then 1.12
  else if n = 6 then 1.24
  else if n = 7 then 1.32
  else if n = 8 then 1.41
  else if n = 9 then 1.45
  else if n = 10 then 1.49
  else if n = 11 then 1.51
  else if n = 12 then 1.48
  else if n = 13 then 1.56
  else if n = 14 then 1.57
  else if n = 15 then 1.59
  else 1.49

/-! ## dynamic_scale_interface_complete.py : scale transforms -/

/-- `math.atanh`, modelled by its standard definition
`atanh x = log ((1 + x) / (1 - x)) / 2` (valid on `(-1, 1)`), which is what
Python's math library computes there. -/
noncomputable def atanh (x : ℝ) : ℝ := Real.log ((1 + x) / (1 - x)) / 2

/-- `integer_by_scale` (`IntegerByScale`) from
`dynamic_scale_interface_complete.py` lines 426-449 (identical in `main.py`
lines 424-439): sequential overwrites of `result` keyed on the selected
scale type (1 Integer, 2 Balanced, 3 Power, 4 Ma-Zheng, 5 Donegan-Dodd). -/
noncomputable def integer_by_scale (scale_type : ℕ) (data : ℝ) : ℝ :=
  let result := data
  let result := if scale_type = 2 then
    (0.5 + (data - 1) * 0.05) / (0.5 - (data - 1) * 0.05) else result
  let result := if scale_type = 3 then (9 : ℝ) ^ ((data - 1) / 8) else result
  let result := if scale_type = 4 then 9 / (9 + 1 - data) else result
  let result := if scale_type = 5 then
    Real.exp (atanh ((data - 1) / 14 * Real.sqrt 3)) else result
  result

/-! ## dynamic_scale_interface_complete.py : the elicitation state machine

Scale-configuration strings (`ScaleStr`) are encoded as their lists of digits:
`'0'` is `[0]`, `'259'` is `[2, 5, 9]`, and so on.  Panel hints are either a
direction label (`LESS_MORE[0] = 'Less'`, `LESS_MORE[1] = 'More'`) or a
preference label `PREF[g]`, encoded by the grade digit `g`. -/

/-- The `GRADUAL_SCALE` table (lines 44-52), digit-list encoded. -/
def GRADUAL_SCALE : ℕ → List ℕ
  | 2 => [2, 5]
  | 3 => [2, 5, 9]
  | 4 => [3, 5, 7, 9]
  | 5 => [2, 3, 5, 7, 9]
  | 6 => [2, 3, 4, 5, 7, 9]
  | 7 => [2, 3, 4, 5, 6, 7, 9]
  | 8 => [2, 3, 4, 5, 6, 7, 8, 9]
  | _ => []

/-- The mutable state of `DynamicScaleInterface`: `reverse` (-1 unset,
0 Less, 1 More), `res` (working value), `rel` (working reliability),
`scale_str` (digit-list encoded) and the scale-type radio value (1..5). -/
structure St where
  reverse : ℤ
  res : ℚ
  rel : ℚ
  scaleStr : List ℕ
  scaleType : ℕ
deriving DecidableEq

/-- The state set by `form_show` (lines 408-424): `reverse = -1`,
`res = 1.0`, `rel = 0.0`, `scale_str = '0'`, Integer scale selected. -/
def initSt : St := ⟨-1, 1, 0, [0], 1⟩

/-- The result record captured when `close_window` (lines 822-846) runs:
the direction, the pre-transform working value, the reliability and the
emitted scale type.  `judgmentRatio` below applies the scale transform and
the `Less` inversion to recover the emitted ratio. -/
structure Judgment where
  reverseOut : ℤ
  resGrade : ℚ
  rel : ℚ
  scaleTypeOut : ℕ
deriving DecidableEq

/-- `close_window` (lines 822-846): with a direction set the working value
is kept for transformation and `rel` is kept; otherwise `rel := 0`.
`scale_type` is 0 when `reverse < 0`, else the radio value. -/
def close_window (st : St) : Judgment :=
  if -1 < st.reverse then
    { reverseOut := st.reverse, resGrade := st.res, rel := st.rel,
      scaleTypeOut := st.scaleType }
  else
    { reverseOut := st.reverse, resGrade := st.res, rel := 0, scaleTypeOut := 0 }

open Classical in
/-- The ratio finally emitted for a captured result (lines 826-832):
`res = integer_by_scale(res)` and, in the `Less` case, `res = 1 / res`
guarded by `res != 0`; with no direction set, `res` is left untouched. -/
noncomputable def judgmentRatio (j : Judgment) : ℝ :=
  if -1 < j.reverseOut then
    let r := integer_by_scale j.scaleTypeOut (j.resGrade : ℝ)
    if j.reverseOut = 0 then (if r = 0 then r else 1 / r) else r
  else (j.resGrade : ℝ)

/-- A clickable panel hint: a direction label (`more = false` is
`LESS_MORE[0] = 'Less'`, `more = true` is `LESS_MORE[1] = 'More'`) or a
preference label `PREF[g]` for a grade digit `g`. -/
inductive Hint
  | dir (more : Bool)
  | grade (g : Fin 10)
deriving DecidableEq

/-- One discrete user action: clicking a scale panel, the `No idea` /
`Equally` button (also the Return key and the window-close button, which
route to the same handler), the gradation spin buttons (also mouse wheel),
or a scale-type radio button. -/
inductive Act
  | panel (h : Hint)
  | noIdea
  | spinUp
  | spinDown
  | setScale (t : Fin 6)
deriving DecidableEq

/-- The three scale strings treated specially by `build_scale` and
`panel_scale_click` (`['23459', '25679', '2589']`). -/
def specialToken (s : List ℕ) : Bool :=
  s == [2, 3, 4, 5, 9] || s == [2, 5, 6, 7, 9] || s == [2, 5, 8, 9]

/-- The grouped-panel test of `build_scale` (lines 523-532): position of the
grade digit in the scale string, 1-based; `'23459'` groups positions > 3,
`'25679'` groups positions outside `[2, 4]`, `'2589'` groups positions < 3. -/
def isGrouped (s : List ℕ) (g : ℕ) : Bool :=
  let pos := s.indexOf g + 1
  if s = [2, 3, 4, 5, 9] then decide (3 < pos)
  else if s = [2, 5, 6, 7, 9] then !(decide (2 ≤ pos) && decide (pos ≤ 4))
  else if s = [2, 5, 8, 9] then decide (pos < 3)
  else false

/-- Background colour given to a grade panel by `build_scale`
(lines 518-564): in the three special scale strings a grouped panel is gray
`'#f0f0f0'` unless the Integer scale (type 1) is selected; every other grade
panel is red. `true` means red. -/
def panelIsRed (s : List ℕ) (scale_type : ℕ) (g : ℕ) : Bool :=
  if specialToken s then !(isGrouped s g && !(scale_type == 1)) else true

/-- Background colour of the panel carrying a given hint: the initial
`Less`/`More` buttons are red, the rebuilt direction indicator panel is gray
(lines 499-510), grade panels are coloured by `panelIsRed`. -/
def hintBgRed (st : St) (h : Hint) : Bool :=
  match h with
  | .dir _ => st.reverse == -1
  | .grade g => panelIsRed st.scaleStr st.scaleType (g : ℕ)

/-- Which panels exist and are clickable in a state: initially the two
direction buttons; after a direction is chosen, the indicator panel carries
the caption `LESS_MORE[1 - reverse]` (line 503) and one grade panel exists
per digit of the scale string. -/
def clickable (st : St) (h : Hint) : Bool :=
  match h with
  | .dir more =>
      st.reverse == -1 || (if st.reverse == 0 then more else !more)
  | .grade g => !(st.reverse == -1) && decide ((g : ℕ) ∈ st.scaleStr)

/-- The grade-matching loop of `panel_scale_click` (lines 649-653 and
677-681): `grad` defaults to 1 and becomes the 1-based position of the first
scale-string digit whose `PREF` label equals the clicked hint. -/
def findGrad (s : List ℕ) (h : Hint) : ℕ :=
  match h with
  | .grade g => if (g : ℕ) ∈ s then s.indexOf (g : ℕ) + 1 else 1
  | .dir _ => 1

/-- `panel_scale_click` (lines 621-704).  A direction hint first updates
`reverse`; then the four-way branch: initial coarse setup for `'0'`; the
medium transition from `'259'` on a red panel; the sideways jump on a gray
(grouped) panel; otherwise the final selection, which computes the offset
grade, fixes `rel`, computes `res` and calls `close_window`. -/
def panel_scale_click (st : St) (h : Hint) : St ⊕ Judgment :=
  let bgRed := hintBgRed st h
  let st :=
    match h with
    | .dir false => { st with reverse := 0 }
    | .dir true => { st with reverse := 1 }
    | .grade _ => st
  if st.scaleStr = [0] then
    .inl { st with rel := 1, res := 5.5, scaleStr := [2, 5, 9] }
  else if st.scaleStr = [2, 5, 9] ∧ bgRed = true then
    let grad := findGrad [2, 5, 9] h
    let newStr :=
      if grad = 1 then [2, 3, 4, 5, 9]
      else if grad = 2 then [2, 5, 6, 7, 9]
      else if grad = 3 then [2, 5, 8, 9]
      else st.scaleStr
    .inl { st with scaleStr := newStr, rel := 3,
                   res := 1.5 + ((grad : ℚ) - 0.5) * (9.5 - 1.5) / 3 }
  else if bgRed = false then
    if h = .grade 2 then
      .inl { st with scaleStr := [2, 3, 4, 5, 9],
                     res := 1.5 + ((1 : ℚ) - 0.5) * (9.5 - 1.5) / 3 }
    else if h = .grade 5 then
      .inl { st with scaleStr := [2, 5, 6, 7, 9],
                     res := 1.5 + ((2 : ℚ) - 0.5) * (9.5 - 1.5) / 3 }
    else if h = .grade 9 then
      .inl { st with scaleStr := [2, 5, 8, 9],
                     res := 1.5 + ((3 : ℚ) - 0.5) * (9.5 - 1.5) / 3 }
    else .inl st
  else
    let grad := findGrad st.scaleStr h
    let grad :=
      if st.scaleStr = [2, 5, 6, 7, 9] then grad + 2
      else if st.scaleStr = [2, 5, 8, 9] then grad + 4
      else grad
    let rel : ℚ := if specialToken st.scaleStr then 8 else (st.scaleStr.length : ℚ)
    let res : ℚ := 1.5 + ((grad : ℚ) - 0.5) * (9.5 - 1.5) / rel
    .inr (close_window { st with rel := rel, res := res })

/-- One user action applied to a state.  Panel clicks go through
`panel_scale_click` when the panel exists; `no_idea_click` (lines 818-820),
the Return key and the window-close button call `close_window`; the spin
buttons (lines 788-804) switch to the `GRADUAL_SCALE` string of the next
gradation count and reset `rel = 1`, `res = 5.5`; a radio button sets the
scale type (the choice panel is only shown once a direction is chosen). -/
def step (st : St) (a : Act) : St ⊕ Judgment :=
  match a with
  | .panel h => if clickable st h = true then panel_scale_click st h else .inl st
  | .noIdea => .inr (close_window st)
  | .spinUp =>
      .inl (if -1 < st.reverse ∧ st.scaleStr.length < 8 then
              { st with scaleStr := GRADUAL_SCALE (st.scaleStr.length + 1),
                        rel := 1, res := 5.5 }
            else st)
  | .spinDown =>
      .inl (if -1 < st.reverse ∧ 2 < st.scaleStr.length then
              { st with scaleStr := GRADUAL_SCALE (st.scaleStr.length - 1),
                        rel := 1, res := 5.5 }
            else st)
  | .setScale t =>
      .inl (if -1 < st.reverse ∧ 1 ≤ (t : ℕ) then
              { st with scaleType := (t : ℕ) }
            else st)

/-- Run a list of user actions from a state; the first emission ends the
session (the window is closed) and later actions are ignored. -/
def runFrom : St → List Act → St ⊕ Judgment
  | st, [] => .inl st
  | st, a :: rest =>
      match step st a with
      | .inl st2 => runFrom st2 rest
      | .inr j => .inr j

/-- Run a list of user actions from the initial (`form_show`) state. -/
def runActs (acts : List Act) : St ⊕ Judgment := runFrom initSt acts

/-! ## Reachability invariant of the state machine -/

/-- The scale strings reachable once a direction has been chosen: the
coarse string `'259'`, the three medium strings, and the `GRADUAL_SCALE`
strings of 2, 4, 5, 6, 7 and 8 gradations. -/
def tokenOK (s : List ℕ) : Bool :=
  decide (s = [2, 5, 9] ∨ s = [2, 3, 4, 5, 9] ∨ s = [2, 5, 6, 7, 9] ∨
    s = [2, 5, 8, 9] ∨ s = [2, 5] ∨ s = [3, 5, 7, 9] ∨
    s = [2, 3, 5, 7, 9] ∨ s = [2, 3, 4, 5, 7, 9] ∨
    s = [2, 3, 4, 5, 6, 7, 9] ∨ s = [2, 3, 4, 5, 6, 7, 8, 9])

/-- Invariant on reachable open states: either the initial state, or a
direction is chosen, the working value is one of the three coarse-level
values, the working reliability is 1 or 3, the scale type is 1..5 and the
scale string is one of the reachable ones. -/
def stInv (st : St) : Bool :=
  decide (st = initSt ∨
    ((st.reverse = 0 ∨ st.reverse = 1) ∧
     (st.res = 17 / 6 ∨ st.res = 11 / 2 ∨ st.res = 49 / 6) ∧
     (st.rel = 1 ∨ st.rel = 3) ∧
     (1 ≤ st.scaleType ∧ st.scaleType ≤ 5) ∧
     tokenOK st.scaleStr = true))

/-- The reliability values the machine can ever emit. -/
def relValues : List ℚ := [0, 1, 2, 3, 4, 5, 6, 7, 8]

/-- Properties of every emitted result: with no direction the triple is
ratio-grade 1, reliability 0, scale type 0; with a direction the grade lies
in `[2, 9]`, the reliability is one of 0..8 and the scale type is 1..5. -/
def emitOK (j : Judgment) : Bool :=
  decide ((j.reverseOut = -1 ∧ j.resGrade = 1 ∧ j.rel = 0 ∧ j.scaleTypeOut = 0) ∨
    (0 ≤ j.reverseOut ∧ j.reverseOut ≤ 1 ∧ 2 ≤ j.resGrade ∧ j.resGrade ≤ 9 ∧
     j.rel ∈ relValues ∧ 1 ≤ j.scaleTypeOut ∧ j.scaleTypeOut ≤ 5))

/-- One step out of an invariant state lands in an invariant state or emits
a well-formed result. -/
def stepOK (st : St) (a : Act) : Bool :=
  match step st a with
  | .inl st2 => stInv st2
  | .inr j => emitOK j

theorem stInv_mk (rv : ℤ) (r re : ℚ) (s : List ℕ) (ty : ℕ)
    (hrv : rv = 0 ∨ rv = 1) (hres : r = 17 / 6 ∨ r = 11 / 2 ∨ r = 49 / 6)
    (hrel : re = 1 ∨ re = 3) (hty1 : 1 ≤ ty) (hty5 : ty ≤ 5)
    (htok : tokenOK s = true) : stInv ⟨rv, r, re, s, ty⟩ = true := by
  simp only [stInv, decide_eq_true_eq]
  exact Or.inr ⟨hrv, hres, hrel, ⟨hty1, hty5⟩, htok⟩

theorem emitOK_close (rv : ℤ) (r re : ℚ) (s : List ℕ) (ty : ℕ)
    (hrv : rv = 0 ∨ rv = 1) (h2 : 2 ≤ r) (h9 : r ≤ 9)
    (hre : re ∈ relValues) (hty1 : 1 ≤ ty) (hty5 : ty ≤ 5) :
    emitOK (close_window ⟨rv, r, re, s, ty⟩) = true := by
  have hlt : (-1 : ℤ) < rv := by rcases hrv with rfl | rfl <;> decide
  simp only [emitOK, close_window, if_pos hlt, decide_eq_true_eq]
  exact Or.inr ⟨by rcases hrv with rfl | rfl <;> decide,
    by rcases hrv with rfl | rfl <;> decide, h2, h9, hre, hty1, hty5⟩

theorem stepOK_noIdea (st : St) (hst : stInv st = true) :
    stepOK st .noIdea = true := by
  obtain ⟨rv, r, re, s, ty⟩ := st
  simp only [stInv, decide_eq_true_eq] at hst
  rcases hst with hinit | ⟨hrv, hres, hrel, ⟨hty1, hty5⟩, htok⟩
  · rw [hinit]; decide
  · have h2 : 2 ≤ r := by rcases hres with rfl | rfl | rfl <;> norm_num
    have h9 : r ≤ 9 := by rcases hres with rfl | rfl | rfl <;> norm_num
    have hre : re ∈ relValues := by rcases hrel with rfl | rfl <;> decide
    exact emitOK_close rv r re s ty hrv h2 h9 hre hty1 hty5

theorem stepOK_spinUp (st : St) (hst : stInv st = true) :
    stepOK st .spinUp = true := by
  obtain ⟨rv, r, re, s, ty⟩ := st
  simp only [stInv, decide_eq_true_eq] at hst
  rcases hst with hinit | ⟨hrv, hres, hrel, ⟨hty1, hty5⟩, htok⟩
  · rw [hinit]; decide
  · have hlt : (-1 : ℤ) < rv := by rcases hrv with rfl | rfl <;> decide
    simp only [tokenOK, decide_eq_true_eq] at htok
    rcases htok with rfl | rfl | rfl | rfl | rfl | rfl | rfl | rfl | rfl | rfl <;>
      first
        | (simp only [stepOK, step]
           rw [if_pos (And.intro hlt (by decide))]
           exact stInv_mk _ _ _ _ _ hrv (Or.inr (Or.inl (by norm_num)))
             (Or.inl rfl) hty1 hty5 (by decide))
        | (simp only [stepOK, step]
           rw [if_neg (fun hc => absurd hc.2 (by decide))]
           exact stInv_mk _ _ _ _ _ hrv hres hrel hty1 hty5 (by decide))

theorem stepOK_spinDown (st : St) (hst : stInv st = true) :
    stepOK st .spinDown = true := by
  obtain ⟨rv, r, re, s, ty⟩ := st
  simp only [stInv, decide_eq_true_eq] at hst
  rcases hst with hinit | ⟨hrv, hres, hrel, ⟨hty1, hty5⟩, htok⟩
  · rw [hinit]; decide
  · have hlt : (-1 : ℤ) < rv := by rcases hrv with rfl | rfl <;> decide
    simp only [tokenOK, decide_eq_true_eq] at htok
    rcases htok with rfl | rfl | rfl | rfl | rfl | rfl | rfl | rfl | rfl | rfl <;>
      first
        | (simp only [stepOK, step]
           rw [if_pos (And.intro hlt (by decide))]
           exact stInv_mk _ _ _ _ _ hrv (Or.inr (Or.inl (by norm_num)))
             (Or.inl rfl) hty1 hty5 (by decide))
        | (simp only [stepOK, step]
           rw [if_neg (fun hc => absurd hc.2 (by decide))]
           exact stInv_mk _ _ _ _ _ hrv hres hrel hty1 hty5 (by decide))

theorem stepOK_setScale (st : St) (hst : stInv st = true) (t : Fin 6) :
    stepOK st (.setScale t) = true := by
  obtain ⟨rv, r, re, s, ty⟩ := st
  simp only [stInv, decide_eq_true_eq] at hst
  rcases hst with hinit | ⟨hrv, hres, hrel, ⟨hty1, hty5⟩, htok⟩
  · rw [hinit]; fin_cases t <;> decide
  · simp only [stepOK, step]
    by_cases hc : -1 < rv ∧ 1 ≤ (t : ℕ)
    · rw [if_pos hc]
      exact stInv_mk _ _ _ _ _ hrv hres hrel hc.2
        (Nat.lt_succ_iff.mp t.isLt) htok
    · rw [if_neg hc]
      exact stInv_mk _ _ _ _ _ hrv hres hrel hty1 hty5 htok

theorem stepOK_panel_dir (st : St) (hst : stInv st = true) (m : Bool) :
    stepOK st (.panel (.dir m)) = true := by
  obtain ⟨rv, r, re, s, ty⟩ := st
  simp only [stInv, decide_eq_true_eq] at hst
  rcases hst with hinit | ⟨hrv, hres, hrel, ⟨hty1, hty5⟩, htok⟩
  · rw [hinit]; cases m <;> with_unfolding_all decide
  · simp only [tokenOK, decide_eq_true_eq] at htok
    rcases hrv with rfl | rfl <;> cases m <;>
      rcases htok with rfl | rfl | rfl | rfl | rfl | rfl | rfl | rfl | rfl | rfl <;>
      first
        | (refine stInv_mk _ _ _ _ _ (Or.inl rfl) hres hrel hty1 hty5 ?_ <;> (try simp only []) <;>
            with_unfolding_all decide)
        | (refine stInv_mk _ _ _ _ _ (Or.inr rfl) hres hrel hty1 hty5 ?_ <;> (try simp only []) <;>
            with_unfolding_all decide)

set_option maxHeartbeats 2000000 in
theorem stepOK_panel_grade (st : St) (hst : stInv st = true) (g : Fin 10) :
    stepOK st (.panel (.grade g)) = true := by
  obtain ⟨rv, r, re, s, ty⟩ := st
  simp only [stInv, decide_eq_true_eq] at hst
  rcases hst with hinit | ⟨hrv, hres, hrel, ⟨hty1, hty5⟩, htok⟩
  · rw [hinit]; fin_cases g <;> with_unfolding_all decide
  · simp only [tokenOK, decide_eq_true_eq] at htok
    rcases hrv with rfl | rfl <;>
      rcases htok with rfl | rfl | rfl | rfl | rfl | rfl | rfl | rfl | rfl | rfl <;>
      fin_cases g <;>
      first
        | (refine stInv_mk _ _ _ _ _ (Or.inl rfl) hres hrel hty1 hty5 ?_ <;> (try simp only []) <;>
            with_unfolding_all decide)
        | (refine stInv_mk _ _ _ _ _ (Or.inr rfl) hres hrel hty1 hty5 ?_ <;> (try simp only []) <;>
            with_unfolding_all decide)
        | (refine stInv_mk _ _ _ _ _ (Or.inl rfl) ?_ (Or.inr rfl) hty1
            hty5 ?_ <;> (try simp only []) <;> with_unfolding_all decide)
        | (refine stInv_mk _ _ _ _ _ (Or.inr rfl) ?_ (Or.inr rfl) hty1
            hty5 ?_ <;> (try simp only []) <;> with_unfolding_all decide)
        | (refine emitOK_close _ _ _ _ _ (Or.inl rfl) ?_ ?_ ?_ hty1 hty5 <;> (try simp only []) <;>
            with_unfolding_all decide)
        | (refine emitOK_close _ _ _ _ _ (Or.inr rfl) ?_ ?_ ?_ hty1 hty5 <;> (try simp only []) <;>
            with_unfolding_all decide)
        | (interval_cases ty <;>
           first
             | (refine stInv_mk _ _ _ _ _ (Or.inl rfl) ?_ hrel ?_ ?_ ?_ <;> (try simp only []) <;>
                 with_unfolding_all decide)
             | (refine stInv_mk _ _ _ _ _ (Or.inr rfl) ?_ hrel ?_ ?_ ?_ <;> (try simp only []) <;>
                 with_unfolding_all decide)
             | (refine emitOK_close _ _ _ _ _ (Or.inl rfl) ?_ ?_ ?_ ?_ ?_ <;> (try simp only []) <;>
                 with_unfolding_all decide)
             | (refine emitOK_close _ _ _ _ _ (Or.inr rfl) ?_ ?_ ?_ ?_ ?_ <;> (try simp only []) <;>
                 with_unfolding_all decide))

theorem stepOK_of_inv (st : St) (hst : stInv st = true) (a : Act) :
    stepOK st a = true := by
  cases a with
  | panel h =>
      cases h with
      | dir m => exact stepOK_panel_dir st hst m
      | grade g => exact stepOK_panel_grade st hst g
  | noIdea => exact stepOK_noIdea st hst
  | spinUp => exact stepOK_spinUp st hst
  | spinDown => exact stepOK_spinDown st hst
  | setScale t => exact stepOK_setScale st hst t

theorem runFrom_inl_inv (acts : List Act) (st : St) (hst : stInv st = true) :
    ∀ st2, runFrom st acts = .inl st2 → stInv st2 = true := by
  induction acts generalizing st with
  | nil =>
      intro st2 h
      simp only [runFrom, Sum.inl.injEq] at h
      rw [← h]; exact hst
  | cons a rest ih =>
      intro st2 h
      simp only [runFrom] at h
      cases he : step st a with
      | inl st1 =>
          have hs1 : stInv st1 = true := by
            have hs := stepOK_of_inv st hst a
            unfold stepOK at hs
            rw [he] at hs
            exact hs
          rw [he] at h
          exact ih st1 hs1 st2 h
      | inr j1 =>
          rw [he] at h
          exact absurd h (by simp)

theorem runFrom_inr_emitOK (acts : List Act) (st : St) (hst : stInv st = true) :
    ∀ j, runFrom st acts = .inr j → emitOK j = true := by
  induction acts generalizing st with
  | nil =>
      intro j h
      simp only [runFrom] at h
      exact absurd h (by simp)
  | cons a rest ih =>
      intro j h
      simp only [runFrom] at h
      cases he : step st a with
      | inl st1 =>
          have hs1 : stInv st1 = true := by
            have hs := stepOK_of_inv st hst a
            unfold stepOK at hs
            rw [he] at hs
            exact hs
          rw [he] at h
          exact ih st1 hs1 j h
      | inr j1 =>
          rw [he] at h
          have hj : j1 = j := by simpa using h
          have hs := stepOK_of_inv st hst a
          unfold stepOK at hs
          rw [he] at hs
          rw [← hj]
          exact hs

theorem stInv_initSt : stInv initSt = true := by
  with_unfolding_all decide

/-- Every result ever emitted by a run of the elicitation machine from the
initial state satisfies `emitOK`. -/
theorem runActs_emitOK (acts : List Act) (j : Judgment)
    (h : runActs acts = .inr j) : emitOK j = true :=
  runFrom_inr_emitOK acts initSt stInv_initSt j h

/-! ## Claim theorems: the comparison-matrix builder (C1, C5) -/

theorem apply_comparison_inv (m : ℕ → ℕ → ℚ) (c : ℕ × ℕ × ℚ)
    (hc : 0 < c.2.2 ∧ c.1 ≠ c.2.1)
    (hm : ∀ a b, m a a = 1 ∧ m a b * m b a = 1) :
    ∀ a b, apply_comparison m c a a = 1 ∧
      apply_comparison m c a b * apply_comparison m c b a = 1 := by
  obtain ⟨i, j, v⟩ := c
  obtain ⟨hv, hij⟩ := hc
  intro a b
  simp only [apply_comparison] at *
  constructor
  · rw [if_neg (by rintro ⟨rfl, h2⟩; exact hij h2.symm),
      if_neg (by rintro ⟨rfl, h2⟩; exact hij h2)]
    exact (hm a a).1
  · by_cases h1 : a = i ∧ b = j
    · obtain ⟨rfl, rfl⟩ := h1
      rw [if_neg (by rintro ⟨h, _⟩; exact hij h), if_pos ⟨rfl, rfl⟩,
        if_pos ⟨rfl, rfl⟩, if_pos hv]
      exact mul_one_div_cancel (ne_of_gt hv)
    · by_cases h2 : a = j ∧ b = i
      · obtain ⟨rfl, rfl⟩ := h2
        rw [if_pos ⟨rfl, rfl⟩, if_pos hv,
          if_neg (by rintro ⟨h, _⟩; exact hij h), if_pos ⟨rfl, rfl⟩]
        exact one_div_mul_cancel (ne_of_gt hv)
      · rw [if_neg h2, if_neg h1,
          if_neg (fun h => h1 ⟨h.2, h.1⟩), if_neg (fun h => h2 ⟨h.2, h.1⟩)]
        exact (hm a b).2

theorem foldl_apply_comparison_inv (cs : List (ℕ × ℕ × ℚ)) :
    ∀ m0 : ℕ → ℕ → ℚ, (∀ c ∈ cs, 0 < c.2.2 ∧ c.1 ≠ c.2.1) →
    (∀ a b, m0 a a = 1 ∧ m0 a b * m0 b a = 1) →
    ∀ a b, (cs.foldl apply_comparison m0) a a = 1 ∧
      (cs.foldl apply_comparison m0) a b * (cs.foldl apply_comparison m0) b a = 1 := by
  induction cs with
  | nil => intro m0 _ hm0; exact hm0
  | cons c rest ih =>
      intro m0 hc hm0
      simp only [List.foldl_cons]
      exact ih (apply_comparison m0 c)
        (fun d hd => hc d (List.mem_cons_of_mem c hd))
        (apply_comparison_inv m0 c (hc c (List.mem_cons_self c rest)) hm0)

/-- C1 (amended): for every comparison list whose values are all positive
and whose index pairs are off-diagonal, the built matrix is reciprocal:
`M[i][i] = 1` and `M[i][j] * M[j][i] = 1` for all indices (exactly, so in
particular within any floating tolerance).  The positivity and
off-diagonal hypotheses are forced by the counterexample below. -/
theorem C1_reciprocity (n : ℕ) (comparisons : List (ℕ × ℕ × ℚ))
    (hc : ∀ c ∈ comparisons, 0 < c.2.2 ∧ c.1 ≠ c.2.1) (i j : ℕ) :
    build_comparison_matrix n comparisons i i = 1 ∧
    build_comparison_matrix n comparisons i j *
      build_comparison_matrix n comparisons j i = 1 :=
  foldl_apply_comparison_inv comparisons (fun _ _ => 1) hc
    (fun _ _ => ⟨rfl, mul_one 1⟩) i j

/-- C1 counterexample: with the single comparison `(0, 1, 0)` (ratio 0,
which `build_comparison_matrix` accepts), the product
`M[0][1] * M[1][0] = 0 * 1 = 0`, so the reciprocity claim as stated over
all inputs is false. -/
theorem C1_reciprocity_counterexample :
    ¬ (build_comparison_matrix 2 [(0, 1, 0)] 0 1 *
        build_comparison_matrix 2 [(0, 1, 0)] 1 0 = 1) := by
  with_unfolding_all decide

theorem C1_reciprocity_witness :
    (∀ c ∈ [((0 : ℕ), (1 : ℕ), (3 : ℚ))], 0 < c.2.2 ∧ c.1 ≠ c.2.1) ∧
    (build_comparison_matrix 2 [(0, 1, 3)] 0 0 = 1 ∧
     build_comparison_matrix 2 [(0, 1, 3)] 0 1 *
       build_comparison_matrix 2 [(0, 1, 3)] 1 0 = 1) :=
  ⟨by with_unfolding_all decide,
   C1_reciprocity 2 [(0, 1, 3)] (by with_unfolding_all decide) 0 1⟩

/-- C5 (amended): a judgment on pair `(i, j)` with ratio 0 sets only the
reciprocal entry `M[j][i]` to 1 (so the reciprocal singularity `1/0` indeed
never occurs), but the forward entry `M[i][j]` is set to `r = 0`, so the
built matrix does not stay positive. -/
theorem C5_zero_ratio (n : ℕ) (cs : List (ℕ × ℕ × ℚ)) (i j : ℕ)
    (hij : i ≠ j) :
    build_comparison_matrix n (cs ++ [(i, j, 0)]) i j = 0 ∧
    build_comparison_matrix n (cs ++ [(i, j, 0)]) j i = 1 := by
  unfold build_comparison_matrix
  rw [List.foldl_append]
  simp only [List.foldl_cons, List.foldl_nil]
  constructor
  · simp [apply_comparison, hij]
  · simp [apply_comparison, hij]

/-- C5 counterexample: after the single comparison `(0, 1, 0)`, the entry
`M[0][1]` is 0, not 1, so the claim that both entries become 1 is false
(and the matrix is not positive). -/
theorem C5_zero_ratio_counterexample :
    ¬ (build_comparison_matrix 2 [(0, 1, 0)] 0 1 = 1 ∧
       build_comparison_matrix 2 [(0, 1, 0)] 1 0 = 1) := by
  with_unfolding_all decide

theorem C5_zero_ratio_witness :
    (0 : ℕ) ≠ 1 ∧
    (build_comparison_matrix 2 ([] ++ [(0, 1, 0)]) 0 1 = 0 ∧
     build_comparison_matrix 2 ([] ++ [(0, 1, 0)]) 1 0 = 1) :=
  ⟨by decide, C5_zero_ratio 2 [] 0 1 (by decide)⟩

/-! ## Claim theorems: the consistency-ratio table (C8) -/

/-- C8: `calculate_consistency_ratio` returns 0 for `n ≤ 2` and `CI / RI(n)`
for `n > 2`, where `RI` is exactly the spec's Random Index table
(`RI_spec`), including the `1.49` fallback for every `n > 15`; the
defensive `RI > 0` guard never changes the result for `n > 2` because every
table value from `n = 3` on is positive. -/
theorem C8_consistency_ratio_table (CI : ℝ) (n : ℕ) :
    calculate_consistency_ratio CI n = if n ≤ 2 then 0 else CI / RI_spec n := by
  unfold calculate_consistency_ratio
  by_cases h2 : n ≤ 2
  · rw [if_pos h2, if_pos h2]
  · rw [if_neg h2, if_neg h2]
    have hR : (RANDOM_INDEX n).getD 1.49 = RI_spec n ∧ 0 < RI_spec n := by
      by_cases h15 : n ≤ 15
      · have h3 : 3 ≤ n := by omega
        interval_cases n <;>
          refine ⟨by simp [RANDOM_INDEX, RI_spec], by norm_num [RI_spec]⟩
      · refine ⟨?_, ?_⟩ <;>
          simp [RANDOM_INDEX, RI_spec, show n ≠ 1 by omega,
            show n ≠ 2 by omega, show n ≠ 3 by omega, show n ≠ 4 by omega,
            show n ≠ 5 by omega, show n ≠ 6 by omega, show n ≠ 7 by omega,
            show n ≠ 8 by omega, show n ≠ 9 by omega, show n ≠ 10 by omega,
            show n ≠ 11 by omega, show n ≠ 12 by omega, show n ≠ 13 by omega,
            show n ≠ 14 by omega, show n ≠ 15 by omega] <;> norm_num
    rw [hR.1, if_pos hR.2]

/-! ## Claim theorems: the scale transforms (C9, C7) -/

theorem atanh_lt_atanh (x y : ℝ) (hx : -1 < x) (hxy : x < y) (hy : y < 1) :
    atanh x < atanh y := by
  unfold atanh
  have h1x : 0 < 1 - x := by linarith
  have h1y : 0 < 1 - y := by linarith
  have h2x : 0 < 1 + x := by linarith
  have harg : (1 + x) / (1 - x) < (1 + y) / (1 - y) := by
    rw [div_lt_div_iff h1x h1y]; nlinarith
  have hlog := Real.log_lt_log (div_pos h2x h1x) harg
  linarith

theorem integer_by_scale_pos (t : ℕ) (g : ℝ) (h1 : 1 ≤ g) (h9 : g ≤ 9) :
    0 < integer_by_scale t g := by
  unfold integer_by_scale
  by_cases h5 : t = 5
  · simp only [h5]
    norm_num
    exact Real.exp_pos _
  · by_cases h4 : t = 4
    · simp only [h4]
      norm_num
      linarith
    · by_cases h3 : t = 3
      · simp only [h3]
        norm_num
        exact Real.rpow_pos_of_pos (by norm_num) _
      · by_cases h2' : t = 2
        · simp only [h2']
          norm_num
          refine div_pos (by nlinarith) (by nlinarith)
        · simp only [if_neg h2', if_neg h3, if_neg h4, if_neg h5]
          linarith

/-- C9: each of the five scale families computed by `integer_by_scale`
(Integer `t = 1`, Balanced `t = 2`, Power `t = 3`, Ma-Zheng `t = 4`,
Donegan-Dodd-McMasters `t = 5`) is strictly increasing on the grade
domain `[1, 9]`. -/
theorem C9_scale_monotone (t : ℕ) (ht1 : 1 ≤ t) (ht5 : t ≤ 5) (g1 g2 : ℝ)
    (hg1 : 1 ≤ g1) (hlt : g1 < g2) (hg2 : g2 ≤ 9) :
    integer_by_scale t g1 < integer_by_scale t g2 := by
  unfold integer_by_scale
  interval_cases t
  · simpa using hlt
  · norm_num
    rw [div_lt_div_iff (by nlinarith) (by nlinarith)]
    nlinarith
  · norm_num
    linarith
  · norm_num
    refine div_lt_div_of_pos_left (by norm_num) (by linarith) (by linarith)
  · norm_num
    have hs := Real.sq_sqrt (by norm_num : (0 : ℝ) ≤ 3)
    have hs0 := Real.sqrt_nonneg 3
    have hsp : 0 < Real.sqrt 3 := Real.sqrt_pos.mpr (by norm_num)
    refine atanh_lt_atanh _ _ ?_ ?_ ?_
    · have : 0 ≤ (g1 - 1) / 14 * Real.sqrt 3 :=
        mul_nonneg (div_nonneg (by linarith) (by norm_num)) hs0
      linarith
    · exact mul_lt_mul_of_pos_right (by linarith) hsp
    · nlinarith [sq_nonneg (4 * Real.sqrt 3 - 7)]

theorem C9_scale_monotone_witness :
    integer_by_scale 1 2 < integer_by_scale 1 3 :=
  C9_scale_monotone 1 (by norm_num) (by norm_num) 2 3 (by norm_num)
    (by norm_num) (by norm_num)

/-- C7: finalizing with direction `j-preferred` (`Less`, `reverse = 0`)
yields exactly the reciprocal of finalizing with direction `i-preferred`
(`More`, `reverse = 1`) at the same grade under the same scale family; the
transformed ratio is positive on the grade domain, so the reciprocal is
genuine (the `res != 0` guard never fires). -/
theorem C7_direction_inversion (t : ℕ) (g : ℚ) (h1 : 1 ≤ g) (h9 : g ≤ 9) :
    0 < judgmentRatio ⟨1, g, 0, t⟩ ∧
    judgmentRatio ⟨0, g, 0, t⟩ = 1 / judgmentRatio ⟨1, g, 0, t⟩ := by
  have hpos : 0 < integer_by_scale t (g : ℝ) :=
    integer_by_scale_pos t _ (by exact_mod_cast h1) (by exact_mod_cast h9)
  refine ⟨?_, ?_⟩ <;> simp [judgmentRatio, ne_of_gt hpos, hpos]

theorem C7_direction_inversion_witness :
    0 < judgmentRatio ⟨1, 3, 0, 2⟩ ∧
    judgmentRatio ⟨0, 3, 0, 2⟩ = 1 / judgmentRatio ⟨1, 3, 0, 2⟩ :=
  C7_direction_inversion 2 3 (by norm_num) (by norm_num)

/-! ## Claim theorems: the elicitation state machine (C3, C4, C6, C10) -/

/-- C3 counterexample: after choosing a direction (clicking `More`), the
no-idea action (`no_idea_click`, which just calls `close_window`) finalizes
with the current working value and reliability: the run
`[More, no-idea]` emits reliability 1 (not 0) and ratio 5.5 (not 1.0)
under the default Integer scale. -/
theorem C3_not_sure_counterexample :
    runActs [.panel (.dir true), .noIdea] = .inr ⟨1, 11 / 2, 1, 1⟩ ∧
    (Judgment.mk 1 (11 / 2) 1 1).rel ≠ 0 ∧
    judgmentRatio ⟨1, 11 / 2, 1, 1⟩ ≠ 1 := by
  refine ⟨by with_unfolding_all decide, by norm_num, ?_⟩
  simp only [judgmentRatio, integer_by_scale]
  norm_num

/-- C3 (amended): before a direction has been chosen (`reverse = -1`, which
in every reachable run means the initial state), the no-idea action emits
a Judgment with ratio exactly 1.0, reliability 0 and scale family "none"
(0); once a direction is chosen, the complete implementation's no-idea
action instead finalizes with the transformed working value and the
current working reliability (see the counterexample). -/
theorem C3_not_sure_initial (acts : List Act) (st : St)
    (h : runActs acts = .inl st) (hrev : st.reverse = -1) :
    step st .noIdea = .inr ⟨-1, 1, 0, 0⟩ ∧ judgmentRatio ⟨-1, 1, 0, 0⟩ = 1 := by
  have hst : stInv st = true := runFrom_inl_inv acts initSt stInv_initSt st h
  have hinit : st = initSt := by
    simp only [stInv, decide_eq_true_eq] at hst
    rcases hst with h0 | ⟨hrv, _⟩
    · exact h0
    · rcases hrv with h1 | h1 <;> rw [hrev] at h1 <;> exact absurd h1 (by decide)
  constructor
  · rw [hinit]; with_unfolding_all decide
  · simp [judgmentRatio]

theorem C3_not_sure_initial_witness :
    runActs [] = .inl initSt ∧ initSt.reverse = -1 ∧
    (step initSt .noIdea = .inr ⟨-1, 1, 0, 0⟩ ∧
     judgmentRatio ⟨-1, 1, 0, 0⟩ = 1) :=
  ⟨rfl, rfl, C3_not_sure_initial [] initSt rfl rfl⟩

/-- C4 counterexample: the run `[More, no-idea]` (pick a direction, then
stop) emits reliability 1, which is outside the claimed set
`{0, 3, 8} ∪ {2..8}`. -/
theorem C4_reliability_counterexample :
    runActs [.panel (.dir true), .noIdea] = .inr ⟨1, 11 / 2, 1, 1⟩ ∧
    ¬ ((Judgment.mk 1 (11 / 2) 1 1).rel = 0 ∨
       (Judgment.mk 1 (11 / 2) 1 1).rel = 3 ∨
       (Judgment.mk 1 (11 / 2) 1 1).rel = 8 ∨
       (2 ≤ (Judgment.mk 1 (11 / 2) 1 1).rel ∧
        (Judgment.mk 1 (11 / 2) 1 1).rel ≤ 8)) :=
  ⟨by with_unfolding_all decide, by with_unfolding_all decide⟩

/-- C4 (amended): every reliability the machine ever emits lies in
`{0, 3, 8} ∪ {2..8} ∪ {1}`: the value 1 is also terminal, emitted when a
session picks a direction (or resets via a gradation-count change) and is
then closed via the no-idea / window-close path. -/
theorem C4_reliability_values (acts : List Act) (j : Judgment)
    (h : runActs acts = .inr j) :
    j.rel = 0 ∨ j.rel = 3 ∨ j.rel = 8 ∨ (2 ≤ j.rel ∧ j.rel ≤ 8) ∨
      j.rel = 1 := by
  have he := runActs_emitOK acts j h
  simp only [emitOK, relValues, decide_eq_true_eq] at he
  rcases he with ⟨_, _, hrel0, _⟩ | ⟨_, _, _, _, hmem, _⟩
  · exact Or.inl hrel0
  · simp only [List.mem_cons, List.not_mem_nil, or_false] at hmem
    rcases hmem with h' | h' | h' | h' | h' | h' | h' | h' | h' <;>
      rw [h'] <;> norm_num

theorem C4_reliability_values_witness :
    runActs [.panel (.dir true), .noIdea] = .inr ⟨1, 11 / 2, 1, 1⟩ ∧
    ((Judgment.mk 1 (11 / 2) 1 1).rel = 0 ∨
     (Judgment.mk 1 (11 / 2) 1 1).rel = 3 ∨
     (Judgment.mk 1 (11 / 2) 1 1).rel = 8 ∨
     (2 ≤ (Judgment.mk 1 (11 / 2) 1 1).rel ∧
      (Judgment.mk 1 (11 / 2) 1 1).rel ≤ 8) ∨
     (Judgment.mk 1 (11 / 2) 1 1).rel = 1) :=
  ⟨by with_unfolding_all decide,
   C4_reliability_values [.panel (.dir true), .noIdea] ⟨1, 11 / 2, 1, 1⟩
     (by with_unfolding_all decide)⟩

/-- C6: in the medium level with token `'25679'` (reached by `More` then
the coarse `Strongly` bucket), clicking the active digit `'5'` — matched
1-based position `p = 2` — applies the `+2` offset before the value
formula, giving ratio grade `1.5 + (4 - 0.5)·(9.5 - 1.5)/8 = 5.0` and
reliability exactly 8; token `'2589'` analogously adds `+4`
(position 3 digit `'8'` gives grade `3 + 4 = 7`, ratio grade 8.0). -/
theorem C6_medium_offset :
    runActs [.panel (.dir true), .panel (.grade 5)] =
      .inl ⟨1, 11 / 2, 3, [2, 5, 6, 7, 9], 1⟩ ∧
    runActs [.panel (.dir true), .panel (.grade 5), .panel (.grade 5)] =
      .inr ⟨1, 5, 8, 1⟩ ∧
    (5 : ℚ) = 1.5 + ((2 + 2 : ℚ) - 0.5) * (9.5 - 1.5) / 8 ∧
    runActs [.panel (.dir true), .panel (.grade 9), .panel (.grade 8)] =
      .inr ⟨1, 8, 8, 1⟩ ∧
    (8 : ℚ) = 1.5 + ((3 + 4 : ℚ) - 0.5) * (9.5 - 1.5) / 8 := by
  refine ⟨?_, ?_, by norm_num, ?_, by norm_num⟩ <;> with_unfolding_all decide

/-- C10: in every reachable finalization with a direction set, the grade
passed to `integer_by_scale` lies in `[1, 9]` — in fact in `[2, 9]` — so
the Balanced denominator `0.5 - (g - 1)·0.05` stays strictly positive and
the Donegan atanh argument `(g - 1)/14·√3` stays strictly inside
`(-1, 1)`. -/
theorem C10_grade_in_domain (acts : List Act) (j : Judgment)
    (h : runActs acts = .inr j) (hdir : 0 ≤ j.reverseOut) :
    (1 ≤ j.resGrade ∧ 2 ≤ j.resGrade ∧ j.resGrade ≤ 9) ∧
    0 < 0.5 - ((j.resGrade : ℝ) - 1) * 0.05 ∧
    |((j.resGrade : ℝ) - 1) / 14 * Real.sqrt 3| < 1 := by
  have he := runActs_emitOK acts j h
  simp only [emitOK, relValues, decide_eq_true_eq] at he
  rcases he with ⟨hrev, _⟩ | ⟨_, _, h2, h9, _⟩
  · rw [hrev] at hdir; exact absurd hdir (by decide)
  · have h2r : (2 : ℝ) ≤ (j.resGrade : ℝ) := by exact_mod_cast h2
    have h9r : (j.resGrade : ℝ) ≤ 9 := by exact_mod_cast h9
    have hs := Real.sq_sqrt (by norm_num : (0 : ℝ) ≤ 3)
    have hs0 := Real.sqrt_nonneg 3
    refine ⟨⟨by linarith, h2, h9⟩, by nlinarith, ?_⟩
    rw [abs_of_nonneg
      (mul_nonneg (div_nonneg (by linarith) (by norm_num)) hs0)]
    nlinarith [sq_nonneg (4 * Real.sqrt 3 - 7)]

theorem C10_grade_in_domain_witness :
    (1 ≤ (Judgment.mk 1 (11 / 2) 1 1).resGrade ∧
     2 ≤ (Judgment.mk 1 (11 / 2) 1 1).resGrade ∧
     (Judgment.mk 1 (11 / 2) 1 1).resGrade ≤ 9) ∧
    0 < 0.5 - (((Judgment.mk 1 (11 / 2) 1 1).resGrade : ℝ) - 1) * 0.05 ∧
    |(((Judgment.mk 1 (11 / 2) 1 1).resGrade : ℝ) - 1) / 14 * Real.sqrt 3| < 1 :=
  C10_grade_in_domain [.panel (.dir true), .noIdea] ⟨1, 11 / 2, 1, 1⟩
    (by with_unfolding_all decide) (by decide)

/-! ## Claim theorem: the perfectly consistent matrix (C2)

`calculate_weights_eigenvector` delegates the eigen-decomposition to
`scipy.linalg.eig` and then takes the eigenvector of the eigenvalue with the
largest real part, element-wise absolute value, and normalizes.  The
external eigen-solver is modelled by its defining property: `v` ranges over
the (real) eigenvectors of eigenvalue `n`, and the last conjunct shows `n`
is the only nonzero (hence the largest) real eigenvalue of a consistent
matrix, so this hypothesis exactly describes what `scipy` returns there. -/

/-- C2: for a perfectly consistent matrix `M[i][j] = w[i]/w[j]` with
positive `w`: `lambda_max = n` at the normalized true weights, `CI = 0`,
`CR = 0`; the geometric-mean estimator returns exactly `w` normalized to
sum 1; any eigenvector of the dominant eigenvalue `n`, after absolute value
and normalization, also returns exactly `w` normalized; and every real
eigenvalue of the matrix is `n` or `0`, so `n` is the dominant one the
eigenvector method selects. -/
theorem C2_perfectly_consistent (n : ℕ) (hn : 2 ≤ n) (w v : Fin n → ℝ)
    (hw : ∀ i, 0 < w i) (hv : v ≠ 0)
    (hev : ∀ i, (∑ j, consistentMatrix w i j * v j) = n * v i) :
    calculate_lambda_max (consistentMatrix w) (normalizeVec w) = n ∧
    calculate_consistency_index
      (calculate_lambda_max (consistentMatrix w) (normalizeVec w)) n = 0 ∧
    calculate_consistency_ratio
      (calculate_consistency_index
        (calculate_lambda_max (consistentMatrix w) (normalizeVec w)) n) n = 0 ∧
    calculate_weights_geometric_mean (consistentMatrix w) = normalizeVec w ∧
    normalizeVec (fun i => |v i|) = normalizeVec w ∧
    (∀ lam : ℝ, ∀ u : Fin n → ℝ, u ≠ 0 →
      (∀ i, (∑ j, consistentMatrix w i j * u j) = lam * u i) →
      lam = n ∨ lam = 0) := by
  have hn0 : 0 < n := by omega
  have hne : (Finset.univ : Finset (Fin n)).Nonempty :=
    ⟨⟨0, hn0⟩, Finset.mem_univ _⟩
  have ncast : (0 : ℝ) < n := by exact_mod_cast hn0
  have hw0 : ∀ i, w i ≠ 0 := fun i => ne_of_gt (hw i)
  have hS : 0 < ∑ j, w j := Finset.sum_pos (fun i _ => hw i) hne
  -- the matrix applied to the normalized true weights
  have hrow : ∀ i, (∑ j, consistentMatrix w i j * normalizeVec w j) =
      n * normalizeVec w i := by
    intro i
    unfold consistentMatrix normalizeVec
    rw [Finset.sum_congr rfl (fun j _ => show
      w i / w j * (w j / ∑ k, w k) = w i / ∑ k, w k by
        rw [div_mul_div_comm, mul_comm (w i) (w j),
          mul_div_mul_left _ _ (hw0 j)])]
    rw [Finset.sum_const, Finset.card_univ, Fintype.card_fin, nsmul_eq_mul]
  have hnv : ∀ i, normalizeVec w i ≠ 0 := fun i => by
    unfold normalizeVec; exact div_ne_zero (hw0 i) (ne_of_gt hS)
  have hlam : calculate_lambda_max (consistentMatrix w) (normalizeVec w) = n := by
    unfold calculate_lambda_max
    rw [Finset.sum_congr rfl (fun i _ => by rw [hrow i])]
    rw [Finset.sum_congr rfl
      (fun i _ => mul_div_cancel_right₀ (n : ℝ) (hnv i))]
    rw [Finset.sum_const, Finset.card_univ, Fintype.card_fin, nsmul_eq_mul]
    exact mul_div_cancel_left₀ _ (ne_of_gt ncast)
  have hci : calculate_consistency_index
      (calculate_lambda_max (consistentMatrix w) (normalizeVec w)) n = 0 := by
    unfold calculate_consistency_index
    rw [if_neg (by omega : ¬ n ≤ 1), hlam]
    simp
  have hcr0 : calculate_consistency_ratio 0 n = 0 := by
    unfold calculate_consistency_ratio
    split_ifs <;> simp
  -- geometric means
  have hP : 0 < ∏ j, w j := Finset.prod_pos (fun i _ => hw i)
  have hgmval : ∀ i, ((∏ j, consistentMatrix w i j) ^ ((1 : ℝ) / n)) =
      w i / (∏ j, w j) ^ ((1 : ℝ) / n) := by
    intro i
    unfold consistentMatrix
    rw [Finset.prod_div_distrib, Finset.prod_const, Finset.card_univ,
      Fintype.card_fin,
      Real.div_rpow (pow_nonneg (le_of_lt (hw i)) _) (le_of_lt hP)]
    congr 1
    rw [← Real.rpow_natCast (w i) n, ← Real.rpow_mul (le_of_lt (hw i)),
      mul_one_div_cancel (ne_of_gt ncast), Real.rpow_one]
  have hQ : 0 < (∏ j, w j) ^ ((1 : ℝ) / n) := Real.rpow_pos_of_pos hP _
  have hgm : calculate_weights_geometric_mean (consistentMatrix w) =
      normalizeVec w := by
    unfold calculate_weights_geometric_mean normalizeVec
    funext i
    simp only []
    rw [hgmval i, Finset.sum_congr rfl (fun j _ => hgmval j), ← Finset.sum_div]
    rw [div_div_div_cancel_right₀ (ne_of_gt hQ)]
  -- every real eigenpair has eigenvalue n or 0
  have key : ∀ (lam : ℝ) (u : Fin n → ℝ),
      (∀ i, (∑ j, consistentMatrix w i j * u j) = lam * u i) →
      ∀ i, lam * u i = w i * (∑ j, u j / w j) := by
    intro lam u hu i
    rw [← hu i]
    unfold consistentMatrix
    rw [Finset.mul_sum]
    refine Finset.sum_congr rfl (fun j _ => ?_)
    rw [div_mul_eq_mul_div, mul_div_assoc]
  have hmax : ∀ lam : ℝ, ∀ u : Fin n → ℝ, u ≠ 0 →
      (∀ i, (∑ j, consistentMatrix w i j * u j) = lam * u i) →
      lam = n ∨ lam = 0 := by
    intro lam u hu0 hu
    have hc := key lam u hu
    have h2 : lam * (∑ j, u j / w j) = n * (∑ j, u j / w j) := by
      have hterm : ∀ i, lam * (u i / w i) = ∑ j, u j / w j := by
        intro i
        calc lam * (u i / w i) = lam * u i / w i := (mul_div_assoc _ _ _).symm
          _ = w i * (∑ j, u j / w j) / w i := by rw [hc i]
          _ = ∑ j, u j / w j := by
              rw [mul_comm, mul_div_assoc, div_self (hw0 i), mul_one]
      calc lam * (∑ j, u j / w j) = ∑ i, lam * (u i / w i) := by
            rw [Finset.mul_sum]
        _ = ∑ _i : Fin n, (∑ j, u j / w j) :=
            Finset.sum_congr rfl (fun i _ => hterm i)
        _ = n * (∑ j, u j / w j) := by
            rw [Finset.sum_const, Finset.card_univ, Fintype.card_fin,
              nsmul_eq_mul]
    by_cases hcz : (∑ j, u j / w j) = 0
    · right
      obtain ⟨i, hi⟩ : ∃ i, u i ≠ 0 := by
        by_contra hco
        push_neg at hco
        exact hu0 (funext hco)
      have h3 := hc i
      rw [hcz, mul_zero] at h3
      rcases mul_eq_zero.mp h3 with h | h
      · exact h
      · exact absurd h hi
    · left
      exact mul_right_cancel₀ hcz h2
  -- the eigenvector of eigenvalue n recovers w normalized
  have hcv := key (n : ℝ) v (fun i => hev i)
  have hvform : ∀ i, v i = w i * (∑ j, v j / w j) / n := by
    intro i
    rw [eq_div_iff (ne_of_gt ncast), mul_comm (v i) (n : ℝ)]
    exact hcv i
  have hcne : (∑ j, v j / w j) ≠ 0 := by
    intro h0
    apply hv
    funext i
    have h1 := hvform i
    rw [h0, mul_zero, zero_div] at h1
    exact h1
  have habs : ∀ i, |v i| = w i * (|∑ j, v j / w j| / n) := by
    intro i
    rw [hvform i, abs_div, abs_mul, abs_of_pos (hw i), abs_of_pos ncast,
      mul_div_assoc]
  have heig : normalizeVec (fun i => |v i|) = normalizeVec w := by
    unfold normalizeVec
    funext i
    simp only []
    rw [habs i, Finset.sum_congr rfl (fun j _ => habs j), ← Finset.sum_mul]
    rw [mul_div_mul_right _ _
      (div_ne_zero (abs_ne_zero.mpr hcne) (ne_of_gt ncast))]
  exact ⟨hlam, hci, by rw [hci]; exact hcr0, hgm, heig, hmax⟩

theorem C2_perfectly_consistent_witness :
    calculate_lambda_max (consistentMatrix (fun _ : Fin 2 => (1 : ℝ)))
      (normalizeVec (fun _ : Fin 2 => (1 : ℝ))) = ((2 : ℕ) : ℝ) :=
  (C2_perfectly_consistent 2 (le_refl 2) (fun _ => 1) (fun _ => 1)
    (fun _ => one_pos) (by intro h; simpa using congrFun h 0)
    (by intro i; simp [consistentMatrix, Fin.sum_univ_two])).1

end Curslast
